import Mathlib

/-!
Verification development for the hr-rag-api repository.

Shallow embedding of the pure logic of `ingest_hr_docs.py`, `rag_backend.py`
and `app.py`:
  * `normalizeDim`    — the dimension-normalizing tail of `embed` / `embed_query`
  * `chunk_text`      — the character chunker (`ingest_hr_docs.chunk_text`)
  * `embed_query`     — `rag_backend.embed_query` with the provider calls abstracted
  * `build_sources_markdown` — `rag_backend.build_sources_markdown`
  * `chat`            — the provider-fallback and sources-footer logic of `app.chat`
  * `ingestFile`      — the per-file portion of `ingest_hr_docs.ingest_directory`

Python strings are modelled as `List Char` where index arithmetic matters and
as `String` where only equality and concatenation matter.  Floats are modelled
as exact rationals.
-/

/-- The tail of `embed` (ingest_hr_docs.py, lines 59-69) and of `embed_query`
(rag_backend.py, lines 45-52): map a vector of length `n` to length `d`.
`vec[i*step:(i+1)*step]` is `(vec.drop (i*step)).take step`; Python's
`int(i*stride)` with `stride = n / d` is the integer `i * n / d`. -/
def normalizeDim (d : ℕ) (vec : List ℚ) : List ℚ :=
  if vec.length = d then vec
  else if vec.length % d = 0 then
    (List.range d).map (fun i =>
      ((vec.drop (i * (vec.length / d))).take (vec.length / d)).sum
        / ((vec.length / d : ℕ) : ℚ))
  else
    (List.range d).map (fun i => vec.getD (i * vec.length / d) 0)

/-- The start-index update of the `chunk_text` loop (ingest_hr_docs.py,
line 49): `start = max(end - overlap, start + 1)` with `end = min(start +
max_chars, n)`.  Python's possibly-negative `end - overlap` and ℕ truncated
subtraction agree after the `max` with `start + 1`. -/
def chunkNextStart (n maxChars overlap start : ℕ) : ℕ :=
  max (min (start + maxChars) n - overlap) (start + 1)

/-- The `while start < n` loop of `chunk_text` (ingest_hr_docs.py, lines
44-49), as a recursion on the start index. -/
def chunkTextAux (text : List Char) (maxChars overlap start : ℕ) : List (List Char) :=
  if h : start < text.length then
    if min (start + maxChars) text.length = text.length then
      [(text.drop start).take (min (start + maxChars) text.length - start)]
    else
      (text.drop start).take (min (start + maxChars) text.length - start) ::
        chunkTextAux text maxChars overlap (chunkNextStart text.length maxChars overlap start)
  else []
termination_by text.length - start
decreasing_by
  have h2 : start + 1 ≤ chunkNextStart text.length maxChars overlap start :=
    Nat.le_max_right _ _
  omega

/-- `chunk_text` (ingest_hr_docs.py, lines 40-50), with the source's default
arguments. -/
def chunk_text (text : List Char) (maxChars : ℕ := 1200) (overlap : ℕ := 200) :
    List (List Char) :=
  chunkTextAux text maxChars overlap 0

lemma chunkTextAux_nil (text : List Char) (maxChars overlap start : ℕ)
    (h : text.length ≤ start) : chunkTextAux text maxChars overlap start = [] := by
  rw [chunkTextAux]
  simp [Nat.not_lt.mpr h]

lemma chunkTextAux_last (text : List Char) (maxChars overlap start : ℕ)
    (h : start < text.length) (h2 : text.length ≤ start + maxChars) :
    chunkTextAux text maxChars overlap start = [text.drop start] := by
  rw [chunkTextAux]
  have he : min (start + maxChars) text.length = text.length := by omega
  simp only [h, dif_pos, he, if_pos]
  congr 1
  rw [← List.length_drop (start) text]
  · exact List.take_length _

lemma chunkTextAux_cons (text : List Char) (maxChars overlap start : ℕ)
    (h2 : start + maxChars < text.length) :
    chunkTextAux text maxChars overlap start =
      (text.drop start).take maxChars ::
        chunkTextAux text maxChars overlap (chunkNextStart text.length maxChars overlap start) := by
  rw [chunkTextAux]
  have h : start < text.length := by omega
  have he : min (start + maxChars) text.length = start + maxChars := by omega
  simp only [h, dif_pos, he]
  have hne : ¬ (start + maxChars = text.length) := by omega
  simp [hne]

lemma chunkTextAux_ne_nil (text : List Char) (maxChars overlap start : ℕ)
    (h : start < text.length) : chunkTextAux text maxChars overlap start ≠ [] := by
  by_cases h2 : text.length ≤ start + maxChars
  · rw [chunkTextAux_last text maxChars overlap start h h2]; simp
  · rw [chunkTextAux_cons text maxChars overlap start (by omega)]; simp

lemma chunkTextAux_length_le (text : List Char) (maxChars overlap : ℕ) :
    ∀ k start, text.length - start ≤ k →
      (chunkTextAux text maxChars overlap start).length ≤ text.length - start := by
  intro k
  induction k with
  | zero =>
    intro s hk
    rw [chunkTextAux_nil text maxChars overlap s (by omega)]
    simp
  | succ k ih =>
    intro s hk
    by_cases hs : s < text.length
    · by_cases hl : text.length ≤ s + maxChars
      · rw [chunkTextAux_last text maxChars overlap s hs hl]
        simp; omega
      · rw [chunkTextAux_cons text maxChars overlap s (by omega)]
        have hnext : s + 1 ≤ chunkNextStart text.length maxChars overlap s :=
          Nat.le_max_right _ _
        have := ih (chunkNextStart text.length maxChars overlap s) (by omega)
        simp only [List.length_cons]
        omega
    · rw [chunkTextAux_nil text maxChars overlap s (by omega)]
      simp

lemma chunkTextAux_chunk_le (text : List Char) (maxChars overlap : ℕ) :
    ∀ k start, text.length - start ≤ k →
      ∀ c ∈ chunkTextAux text maxChars overlap start, c.length ≤ maxChars := by
  intro k
  induction k with
  | zero =>
    intro s hk
    rw [chunkTextAux_nil text maxChars overlap s (by omega)]
    simp
  | succ k ih =>
    intro s hk
    by_cases hs : s < text.length
    · by_cases hl : text.length ≤ s + maxChars
      · rw [chunkTextAux_last text maxChars overlap s hs hl]
        intro c hc
        simp only [List.mem_singleton] at hc
        subst hc
        simp only [List.length_drop]
        omega
      · rw [chunkTextAux_cons text maxChars overlap s (by omega)]
        intro c hc
        rcases List.mem_cons.mp hc with hc | hc
        · subst hc
          simp only [List.length_take, List.length_drop]
          omega
        · have hnext : s + 1 ≤ chunkNextStart text.length maxChars overlap s :=
            Nat.le_max_right _ _
          exact ih (chunkNextStart text.length maxChars overlap s) (by omega) c hc
    · rw [chunkTextAux_nil text maxChars overlap s (by omega)]
      simp

lemma chunkNextStart_of_lt (n maxChars overlap start : ℕ)
    (hov : overlap < maxChars) (h2 : start + maxChars < n) :
    chunkNextStart n maxChars overlap start = start + maxChars - overlap := by
  simp only [chunkNextStart]
  omega

lemma chunkTextAux_drop_join (text : List Char) (maxChars overlap : ℕ)
    (hov : overlap < maxChars) :
    ∀ k start, text.length - start ≤ k →
      ((chunkTextAux text maxChars overlap start).map (List.drop overlap)).flatten =
        text.drop (start + overlap) := by
  intro k
  induction k with
  | zero =>
    intro s hk
    rw [chunkTextAux_nil text maxChars overlap s (by omega)]
    rw [List.drop_eq_nil_of_le (by omega)]
    simp
  | succ k ih =>
    intro s hk
    by_cases hs : s < text.length
    · by_cases hl : text.length ≤ s + maxChars
      · rw [chunkTextAux_last text maxChars overlap s hs hl]
        simp only [List.map_cons, List.map_nil, List.flatten_cons, List.flatten_nil,
          List.append_nil, List.drop_drop]
      · rw [chunkTextAux_cons text maxChars overlap s (by omega)]
        rw [chunkNextStart_of_lt text.length maxChars overlap s hov (by omega)]
        have ihn := ih (s + maxChars - overlap) (by omega)
        simp only [List.map_cons, List.flatten_cons]
        rw [ihn]
        have he : s + maxChars - overlap + overlap = s + maxChars := by omega
        rw [he]
        rw [List.drop_take, List.drop_drop]
        have h2 : text.drop (s + maxChars) =
            (text.drop (s + overlap)).drop (maxChars - overlap) := by
          rw [List.drop_drop]
          congr 1
          omega
        rw [h2, List.take_append_drop]
    · rw [chunkTextAux_nil text maxChars overlap s (by omega)]
      rw [List.drop_eq_nil_of_le (by omega)]
      simp

lemma chunkTextAux_getLast_suffix (text : List Char) (maxChars overlap : ℕ)
    (hmc : 1 ≤ maxChars) :
    ∀ k start, text.length - start ≤ k →
      ∀ h : chunkTextAux text maxChars overlap start ≠ [],
        ∃ pre, pre ++ (chunkTextAux text maxChars overlap start).getLast h = text := by
  intro k
  induction k with
  | zero =>
    intro s hk h
    exact absurd (chunkTextAux_nil text maxChars overlap s (by omega)) h
  | succ k ih =>
    intro s hk h
    by_cases hs : s < text.length
    · by_cases hl : text.length ≤ s + maxChars
      · refine ⟨text.take s, ?_⟩
        have he := chunkTextAux_last text maxChars overlap s hs hl
        have : (chunkTextAux text maxChars overlap s).getLast h = text.drop s := by
          rw [List.getLast_eq_iff_getLast?_eq_some, he]
          rfl
        rw [this, List.take_append_drop]
      · have he := chunkTextAux_cons text maxChars overlap s (by omega)
        have hnext1 : s + 1 ≤ chunkNextStart text.length maxChars overlap s :=
          Nat.le_max_right _ _
        have hnextlt : chunkNextStart text.length maxChars overlap s < text.length := by
          show max (min (s + maxChars) text.length - overlap) (s + 1) < text.length
          omega
        have hne : chunkTextAux text maxChars overlap
            (chunkNextStart text.length maxChars overlap s) ≠ [] :=
          chunkTextAux_ne_nil text maxChars overlap _ hnextlt
        have hlast : (chunkTextAux text maxChars overlap s).getLast h =
            (chunkTextAux text maxChars overlap
              (chunkNextStart text.length maxChars overlap s)).getLast hne := by
          rw [List.getLast_eq_iff_getLast?_eq_some, he,
            ← List.getLast?_eq_getLast_of_ne_nil hne]
          obtain ⟨x, xs, hx⟩ := List.exists_cons_of_ne_nil hne
          rw [hx]
          exact List.getLast?_cons_cons
        rw [hlast]
        exact ih (chunkNextStart text.length maxChars overlap s) (by omega) hne
    · exact absurd (chunkTextAux_nil text maxChars overlap s (by omega)) h

/-- The reconstruction of the original text from overlapping chunks: the first
chunk, followed by every later chunk with its leading `overlap` characters
removed. -/
def reconstruct (overlap : ℕ) : List (List Char) → List Char
  | [] => []
  | c :: rest => c ++ (rest.map (List.drop overlap)).flatten

lemma getD_map_range (d i : ℕ) (hi : i < d) (f : ℕ → ℚ) :
    ((List.range d).map f).getD i 0 = f i := by
  rw [List.getD_eq_getElem?_getD]
  simp [List.getElem?_map, List.getElem?_range hi]

/-- C1: for every vector of length `n ≥ 1` and target `d ≥ 1`, the dimension
normalizer returns a vector of length exactly `d`; it is the identity when
`n = d`, block-averaging when `d ∣ n`, and stride sampling at index
`⌊i·n/d⌋` otherwise. -/
theorem normalizeDim_spec (d : ℕ) (vec : List ℚ)
    (hn : 1 ≤ vec.length) (hd : 1 ≤ d) :
    (normalizeDim d vec).length = d
    ∧ (vec.length = d → normalizeDim d vec = vec)
    ∧ (vec.length ≠ d → vec.length % d = 0 → ∀ i, i < d →
        (normalizeDim d vec).getD i 0 =
          ((vec.drop (i * (vec.length / d))).take (vec.length / d)).sum
            / ((vec.length / d : ℕ) : ℚ))
    ∧ (vec.length % d ≠ 0 → ∀ i, i < d →
        (normalizeDim d vec).getD i 0 = vec.getD (i * vec.length / d) 0) := by
  refine ⟨?_, ?_, ?_, ?_⟩
  · by_cases h1 : vec.length = d
    · simp [normalizeDim, h1]
    · by_cases h2 : vec.length % d = 0
      · simp [normalizeDim, h1, h2]
      · simp [normalizeDim, h1, h2]
  · intro h
    simp [normalizeDim, h]
  · intro hne hmod i hi
    simp only [normalizeDim, if_neg hne, if_pos hmod]
    rw [getD_map_range d i hi]
  · intro hmod i hi
    have hne : vec.length ≠ d := by
      intro h
      rw [h] at hmod
      simp at hmod
    simp only [normalizeDim, if_neg hne, if_neg hmod]
    rw [getD_map_range d i hi]

theorem normalizeDim_spec_witness :
    1 ≤ List.length [(1 : ℚ), 2, 3] ∧ 1 ≤ 2 ∧ (normalizeDim 2 [(1 : ℚ), 2, 3]).length = 2 :=
  ⟨by decide, by decide, (normalizeDim_spec 2 [(1 : ℚ), 2, 3] (by decide) (by decide)).1⟩

/-- C2: for `max_chars ≥ 1` and `0 ≤ overlap < max_chars`, every chunk has
length at most `max_chars`, the chunks with each successive chunk's leading
overlap removed concatenate back to the text, the empty text gives no chunks,
and the final chunk ends exactly at the end of the text (it is a suffix). -/
theorem chunk_text_spec (text : List Char) (maxChars overlap : ℕ)
    (hmc : 1 ≤ maxChars) (hov : overlap < maxChars) :
    (∀ c ∈ chunk_text text maxChars overlap, c.length ≤ maxChars)
    ∧ reconstruct overlap (chunk_text text maxChars overlap) = text
    ∧ (text = [] → chunk_text text maxChars overlap = [])
    ∧ ∀ h : chunk_text text maxChars overlap ≠ [],
        ∃ pre, pre ++ (chunk_text text maxChars overlap).getLast h = text := by
  simp only [chunk_text]
  refine ⟨?_, ?_, ?_, ?_⟩
  · exact chunkTextAux_chunk_le text maxChars overlap text.length 0 (by omega)
  · by_cases hnil : text.length = 0
    · have h : text = [] := List.length_eq_zero.mp hnil
      subst h
      rw [chunkTextAux_nil _ _ _ _ (by simp)]
      rfl
    · by_cases hl : text.length ≤ 0 + maxChars
      · rw [chunkTextAux_last text maxChars overlap 0 (by omega) hl]
        simp [reconstruct]
      · rw [chunkTextAux_cons text maxChars overlap 0 (by omega)]
        rw [chunkNextStart_of_lt text.length maxChars overlap 0 hov (by omega)]
        simp only [reconstruct]
        rw [chunkTextAux_drop_join text maxChars overlap hov text.length
          (0 + maxChars - overlap) (by omega)]
        have h1 : 0 + maxChars - overlap + overlap = maxChars := by omega
        rw [h1, List.drop_zero]
        exact List.take_append_drop maxChars text
  · intro h
    subst h
    exact chunkTextAux_nil _ _ _ _ (by simp)
  · intro h
    exact chunkTextAux_getLast_suffix text maxChars overlap hmc text.length 0 (by omega) h

theorem chunk_text_spec_witness :
    1 ≤ 2 ∧ 1 < 2 ∧ reconstruct 1 (chunk_text ['a', 'b', 'c'] 2 1) = ['a', 'b', 'c'] :=
  ⟨by decide, by decide, (chunk_text_spec ['a', 'b', 'c'] 2 1 (by decide) (by decide)).2.1⟩

/-- C3: the loop of `chunk_text` makes progress — the updated start index
strictly exceeds the old one for every `n`, `overlap` (including
`overlap ≥ max_chars`), and hence the loop terminates, producing at most one
chunk per character of the text. -/
theorem chunk_text_progress (text : List Char) (maxChars overlap : ℕ)
    (hmc : 1 ≤ maxChars) :
    (∀ n start, start < chunkNextStart n maxChars overlap start)
    ∧ (chunk_text text maxChars overlap).length ≤ text.length := by
  constructor
  · intro n s
    exact Nat.lt_of_lt_of_le (Nat.lt_succ_self s) (Nat.le_max_right _ _)
  · rw [chunk_text]
    have := chunkTextAux_length_le text maxChars overlap text.length 0 (by omega)
    omega

theorem chunk_text_progress_witness :
    1 ≤ 1 ∧ (chunk_text ['a', 'b'] 1 5).length ≤ List.length ['a', 'b'] :=
  ⟨by decide, (chunk_text_progress ['a', 'b'] 1 5 (by decide)).2⟩

/-- C9, counterexample: the empty text is strictly shorter than `max_chars`,
yet `chunk_text` returns zero chunks, not one. -/
theorem chunk_text_empty_cex :
    List.length ([] : List Char) < 1200 ∧ (chunk_text [] 1200 200).length = 0 := by
  refine ⟨by decide, ?_⟩
  rw [chunk_text, chunkTextAux_nil _ _ _ _ (by simp)]
  rfl

/-- C9, amended: every *non-empty* text strictly shorter than `max_chars`
yields exactly one chunk, equal to the whole text. -/
theorem chunk_text_short (text : List Char) (maxChars overlap : ℕ)
    (hne : text ≠ []) (hlt : text.length < maxChars) :
    chunk_text text maxChars overlap = [text] := by
  have h0 : 0 < text.length := List.length_pos.mpr hne
  rw [chunk_text, chunkTextAux_last text maxChars overlap 0 h0 (by omega)]
  rw [List.drop_zero]

theorem chunk_text_short_witness :
    (['a'] : List Char) ≠ [] ∧ List.length ['a'] < 2 ∧ chunk_text ['a'] 2 0 = [['a']] :=
  ⟨by decide, by decide, chunk_text_short ['a'] 2 0 (by decide) (by decide)⟩

/-- A Retrieved Document as shaped by `get_hr_policy` (rag_backend.py, lines
66-77): similarity score, chunk text, source file name, optional citation
url. -/
structure Doc where
  score : Option ℚ
  text : String
  file : String
  url : Option String
deriving DecidableEq

/-- `file = d["file"] or "Document"` (rag_backend.py, line 86): Python's `or`
falls through on the empty (falsy) string. -/
def effFile (d : Doc) : String :=
  if d.file = "" then "Document" else d.file

/-- `url = d.get("url") or file` (rag_backend.py, line 90): an absent or
empty url falls back to the effective file name. -/
def effUrl (d : Doc) : String :=
  match d.url with
  | some u => if u = "" then effFile d else u
  | none => effFile d

/-- One bullet line, `f"- ^1 [{file}]({url})"` (rag_backend.py, line 91). -/
def bullet (d : Doc) : String :=
  "- ^1 [" ++ effFile d ++ "](" ++ effUrl d ++ ")"

/-- The `for d in docs` loop of `build_sources_markdown` (rag_backend.py,
lines 84-91), with the `seen` dict modelled as the list of keys inserted. -/
def sourcesLines : List Doc → List String → List String
  | [], _ => []
  | d :: rest, seen =>
    if effFile d ∈ seen then sourcesLines rest seen
    else bullet d :: sourcesLines rest (effFile d :: seen)

/-- `build_sources_markdown` (rag_backend.py, lines 80-92). -/
def build_sources_markdown (docs : List Doc) : String :=
  String.intercalate "\n" ("Sources:" :: sourcesLines docs [])

/-- Spec-side description of the deduplication: keep each document whose
effective file name has not occurred earlier (first occurrence wins). -/
def distinctByFile : List Doc → List Doc
  | [] => []
  | d :: rest => d :: distinctByFile (rest.filter (fun x => effFile x ≠ effFile d))
termination_by l => l.length
decreasing_by
  simp only [List.length_cons]
  exact Nat.lt_succ_of_le (List.length_filter_le _ _)

lemma filter_notmem_cons (rest : List Doc) (f : String) (seen : List String) :
    rest.filter (fun x => effFile x ∉ f :: seen) =
      (rest.filter (fun x => effFile x ∉ seen)).filter (fun x => effFile x ≠ f) := by
  induction rest with
  | nil => rfl
  | cons a t ih =>
    by_cases h1 : effFile a = f
    · by_cases h2 : f ∈ seen
      · simp [List.filter_cons, List.mem_cons, h1, h2, ih]
      · simp [List.filter_cons, List.mem_cons, h1, h2, ih]
    · by_cases h2 : effFile a ∈ seen
      · simp [List.filter_cons, List.mem_cons, h1, h2, ih]
      · simp [List.filter_cons, List.mem_cons, h1, h2, ih]

lemma distinctByFile_nil : distinctByFile [] = [] := by
  rw [distinctByFile.eq_def]

lemma distinctByFile_cons (d : Doc) (rest : List Doc) :
    distinctByFile (d :: rest) =
      d :: distinctByFile (rest.filter (fun x => effFile x ≠ effFile d)) := by
  rw [distinctByFile.eq_def]

lemma sourcesLines_eq_distinct (docs : List Doc) : ∀ seen,
    sourcesLines docs seen =
      (distinctByFile (docs.filter (fun x => effFile x ∉ seen))).map bullet := by
  induction docs with
  | nil => intro seen; simp [sourcesLines, distinctByFile_nil]
  | cons d rest ih =>
    intro seen
    by_cases h : effFile d ∈ seen
    · rw [sourcesLines, if_pos h]
      have hf : List.filter (fun x => effFile x ∉ seen) (d :: rest)
          = List.filter (fun x => effFile x ∉ seen) rest := by
        simp [List.filter_cons, h]
      rw [hf, ih]
    · rw [sourcesLines, if_neg h]
      have hf : List.filter (fun x => effFile x ∉ seen) (d :: rest)
          = d :: List.filter (fun x => effFile x ∉ seen) rest := by
        simp [List.filter_cons, h]
      rw [hf, distinctByFile_cons]
      simp only [List.map_cons]
      rw [ih (effFile d :: seen), filter_notmem_cons]

lemma sourcesLines_nil_of_seen (rest : List Doc) : ∀ seen,
    (∀ x ∈ rest, effFile x ∈ seen) → sourcesLines rest seen = [] := by
  induction rest with
  | nil => intro seen _; rfl
  | cons a t ih =>
    intro seen hall
    rw [sourcesLines, if_pos (hall a (List.mem_cons_self a t))]
    exact ih seen (fun x hx => hall x (List.mem_cons_of_mem a hx))

/-- The fixed user-visible failure reply of the chat handler
(app.py, lines 201 and 207). -/
def APOLOGY : String := "I\x27m sorry, I can\x27t answer that. Please contact HR"

/-- Outcome of the primary (Gemini) `generate_content` call in `chat`
(app.py, lines 136-157): success, a `genai_errors.ClientError` (the only
exception class the handler catches), or any other exception. -/
inductive PrimaryOutcome where
  | ok (text : String)
  | clientError
  | serverError
deriving DecidableEq

/-- The answer produced by the generation part of `chat` (app.py, lines
133-207): primary success uses the trimmed primary text; on a classified
client error the secondary provider is tried when configured, its failure or
absence yielding `APOLOGY`; an unclassified primary exception propagates
(modelled as `none`). -/
def chatAnswer (primary : PrimaryOutcome)
    (secondary : Option (Except Unit String)) : Option String :=
  match primary with
  | .ok t => some t.trim
  | .clientError =>
    match secondary with
    | some (.ok t) => some t.trim
    | some (.error _) => some APOLOGY
    | none => some APOLOGY
  | .serverError => none

/-- The `chat` handler (app.py, lines 104-212): retrieval runs first and is
NOT guarded by any try/except — a retrieval (embedding) failure propagates
out of the handler (modelled as `none`, i.e. an HTTP 5xx); otherwise the
sources footer is appended to whatever answer generation produced
(`answer_with_sources = answer + "\n\n" + sources_md`, line 210). -/
def chat (retrieval : Except Unit (List Doc)) (primary : PrimaryOutcome)
    (secondary : Option (Except Unit String)) : Option String :=
  match retrieval with
  | .error _ => none
  | .ok docs =>
    (chatAnswer primary secondary).map
      (fun a => a ++ "\n\n" ++ build_sources_markdown docs)

/-- `embed_query` (rag_backend.py, lines 25-52) with the two provider calls
abstracted as functions from the query text to a vector or an error: the
primary is tried first; on any primary error the secondary is invoked on the
same text when configured, else the original error is re-raised; the
dimension normalizer is applied to whichever vector succeeded. -/
def embed_query {Text Err : Type} (d : ℕ)
    (primary : Text → Except Err (List ℚ))
    (secondary : Option (Text → Except Err (List ℚ)))
    (text : Text) : Except Err (List ℚ) :=
  match primary text with
  | .ok v => .ok (normalizeDim d v)
  | .error e =>
    match secondary with
    | some s => (s text).map (fun v => normalizeDim d v)
    | none => .error e

/-- C4: the embedding provider calls the primary; on any primary error it
retries the same text on the secondary when configured; with no secondary the
original error propagates; the dimension normalizer is applied to whichever
provider's vector succeeded. -/
theorem embed_query_fallback {Text Err : Type} (d : ℕ)
    (primary : Text → Except Err (List ℚ))
    (secondary : Option (Text → Except Err (List ℚ))) (t : Text) :
    (∀ v, primary t = .ok v →
      embed_query d primary secondary t = .ok (normalizeDim d v))
    ∧ (∀ e s v, primary t = .error e → secondary = some s → s t = .ok v →
      embed_query d primary secondary t = .ok (normalizeDim d v))
    ∧ (∀ e, primary t = .error e → secondary = none →
      embed_query d primary secondary t = .error e) := by
  refine ⟨?_, ?_, ?_⟩
  · intro v hv
    simp [embed_query, hv]
  · intro e s v he hs hv
    simp [embed_query, he, hs, hv, Except.map]
  · intro e he hs
    simp [embed_query, he, hs]

theorem embed_query_fallback_witness :
    (fun _ : ℕ => (Except.error 7 : Except ℕ (List ℚ))) 0 = Except.error 7
    ∧ embed_query 2 (fun _ : ℕ => (Except.error 7 : Except ℕ (List ℚ))) none 0
      = Except.error 7 :=
  ⟨rfl, (embed_query_fallback 2 (fun _ => Except.error 7) none 0).2.2 7 rfl rfl⟩

/-- C6, counterexample: a retrieved document whose file name is empty and
whose url is present but empty is rendered as `- ^1 [Document](Document)`,
not with the file name as link text and the url as link target. -/
theorem build_sources_markdown_cex :
    build_sources_markdown [⟨none, "", "", some ""⟩] =
      String.intercalate "\n" ["Sources:", "- ^1 [Document](Document)"]
    ∧ "- ^1 [Document](Document)" ≠ "- ^1 []()" := by
  constructor
  · rfl
  · decide

/-- C6, amended: `build_sources_markdown` emits a "Sources:" header and one
bullet per distinct *effective* file name (the file name, or "Document" when
it is empty), in first-occurrence order, each bullet carrying the `^1`
marker, the effective file name as link text, and the url when present and
non-empty, else the effective file name, as the link target; documents from
files `[A, A, B]` yield exactly the two bullets for `A` then `B`. -/
theorem build_sources_markdown_spec (docs : List Doc) (a a2 b : Doc)
    (h1 : effFile a = effFile a2) (h2 : effFile a ≠ effFile b) :
    build_sources_markdown docs =
      String.intercalate "\n" ("Sources:" :: (distinctByFile docs).map bullet)
    ∧ build_sources_markdown [a, a2, b] =
      String.intercalate "\n" ["Sources:", bullet a, bullet b] := by
  have hgen : ∀ l : List Doc, build_sources_markdown l =
      String.intercalate "\n" ("Sources:" :: (distinctByFile l).map bullet) := by
    intro l
    rw [build_sources_markdown, sourcesLines_eq_distinct]
    have : List.filter (fun x => effFile x ∉ ([] : List String)) l = l := by
      simp
    rw [this]
  refine ⟨hgen docs, ?_⟩
  rw [hgen [a, a2, b]]
  have hd : distinctByFile [a, a2, b] = [a, b] := by
    rw [distinctByFile_cons]
    have hf : List.filter (fun x => effFile x ≠ effFile a) [a2, b] = [b] := by
      simp [List.filter_cons, h1.symm, Ne.symm h2]
    rw [hf, distinctByFile_cons]
    simp [distinctByFile_nil]
  rw [hd]
  rfl

theorem build_sources_markdown_spec_witness :
    effFile ⟨none, "", "a.md", none⟩ = effFile ⟨none, "", "a.md", none⟩
    ∧ effFile (⟨none, "", "a.md", none⟩ : Doc) ≠ effFile ⟨none, "", "b.md", none⟩
    ∧ build_sources_markdown
        [⟨none, "", "a.md", none⟩, ⟨none, "", "a.md", none⟩, ⟨none, "", "b.md", none⟩] =
      String.intercalate "\n"
        ["Sources:", bullet ⟨none, "", "a.md", none⟩, bullet ⟨none, "", "b.md", none⟩] :=
  ⟨rfl, by decide,
    (build_sources_markdown_spec
      [⟨none, "", "a.md", none⟩, ⟨none, "", "a.md", none⟩, ⟨none, "", "b.md", none⟩]
      ⟨none, "", "a.md", none⟩ ⟨none, "", "a.md", none⟩ ⟨none, "", "b.md", none⟩
      rfl (by decide)).2⟩

/-- C10: with no retrieved documents `build_sources_markdown` is the bare
"Sources:" header, the chat handler still appends that bare header to every
produced answer, and documents with an empty file field are rendered under
the substitute name "Document" and deduplicated into a single bullet. -/
theorem sources_footer_defaults (d : Doc) (rest : List Doc)
    (hd : d.file = "") (hrest : ∀ x ∈ rest, x.file = "") :
    build_sources_markdown ([] : List Doc) = "Sources:"
    ∧ (∀ primary secondary t, chatAnswer primary secondary = some t →
        chat (Except.ok []) primary secondary = some (t ++ "\n\n" ++ "Sources:"))
    ∧ effFile d = "Document"
    ∧ build_sources_markdown (d :: rest) =
      String.intercalate "\n" ["Sources:", bullet d] := by
  have hemp : build_sources_markdown ([] : List Doc) = "Sources:" := rfl
  refine ⟨hemp, ?_, ?_, ?_⟩
  · intro primary secondary t h
    rw [chat, h]
    simp [hemp]
  · simp [effFile, hd]
  · rw [build_sources_markdown, sourcesLines, if_neg (by simp)]
    rw [sourcesLines_nil_of_seen rest (effFile d :: ([] : List String))]
    intro x hx
    have : effFile x = effFile d := by
      simp [effFile, hd, hrest x hx]
    simp [this]

theorem sources_footer_defaults_witness :
    (⟨none, "", "", none⟩ : Doc).file = ""
    ∧ build_sources_markdown [⟨none, "", "", none⟩, ⟨none, "", "", none⟩] =
      String.intercalate "\n" ["Sources:", bullet ⟨none, "", "", none⟩] :=
  ⟨rfl, (sources_footer_defaults ⟨none, "", "", none⟩ [⟨none, "", "", none⟩]
    rfl (by decide)).2.2.2⟩

/-- C5: when the primary chat provider fails with a classified client error
and the secondary is unconfigured or also fails, the reply is exactly the
apology literal, a blank line, and the sources footer built from the
retrieved documents — and the footer is likewise appended to every
successful answer. -/
theorem chat_apology_sources (docs : List Doc)
    (secondary : Option (Except Unit String))
    (h : secondary = none ∨ ∃ e, secondary = some (Except.error e)) :
    chat (Except.ok docs) PrimaryOutcome.clientError secondary
      = some (APOLOGY ++ "\n\n" ++ build_sources_markdown docs)
    ∧ ∀ t sec2, chat (Except.ok docs) (PrimaryOutcome.ok t) sec2
      = some (t.trim ++ "\n\n" ++ build_sources_markdown docs) := by
  constructor
  · rcases h with h | ⟨e, h⟩ <;> subst h <;> rfl
  · intro t sec2
    rfl

theorem chat_apology_sources_witness :
    ((none : Option (Except Unit String)) = none
      ∨ ∃ e, (none : Option (Except Unit String)) = some (Except.error e))
    ∧ chat (Except.ok []) PrimaryOutcome.clientError none
      = some (APOLOGY ++ "\n\n" ++ build_sources_markdown []) :=
  ⟨Or.inl rfl, (chat_apology_sources [] none (Or.inl rfl)).1⟩

/-- C8: the chat handler does NOT convert a retrieval (embedding) failure
into the apology — `get_hr_policy` is called outside any try/except
(app.py, line 112), so the error propagates out of the handler (an HTTP 5xx,
modelled as `none`) whether or not a secondary chat provider is configured. -/
theorem chat_embedding_failure_propagates :
    chat (Except.error ()) PrimaryOutcome.clientError none = none
    ∧ chat (Except.error ()) PrimaryOutcome.clientError (some (Except.error ())) = none :=
  ⟨rfl, rfl⟩

/-- The observable outcome of processing one file in `ingest_directory`
(ingest_hr_docs.py, lines 82-123): the vectors built for the file's chunks,
how many embedding-provider calls and index upsert calls were made, and the
chunk count the tool reports. -/
structure IngestReport where
  vectors : List (List ℚ)
  embedCalls : ℕ
  upsertCalls : ℕ
  reportedChunks : ℕ
deriving DecidableEq

/-- Per-file body of `ingest_directory` (ingest_hr_docs.py, lines 82-123):
chunk with the default `max_chars=1200, overlap=200`; skip the file when no
chunks result; per chunk, in dry-run mode use the literal placeholder
`[0.0] * 768` (line 92) without calling the provider, otherwise `embed` the
chunk (the provider's vector normalized to `targetDim`); in dry-run mode
report the count with no upsert, otherwise upsert once per file. -/
def ingestFile (dryRun : Bool) (targetDim : ℕ)
    (provider : List Char → List ℚ) (text : List Char) : Option IngestReport :=
  let chunks := chunk_text text 1200 200
  if chunks.isEmpty then none
  else
    let vectors := chunks.map (fun c =>
      if dryRun then List.replicate 768 (0 : ℚ)
      else normalizeDim targetDim (provider c))
    some ⟨vectors, if dryRun then 0 else chunks.length,
      if dryRun then 0 else 1, vectors.length⟩

lemma chunk_text_len_3000 (text : List Char) (h : text.length = 3000) :
    (chunk_text text 1200 200).length = 3 := by
  rw [chunk_text]
  rw [chunkTextAux_cons text 1200 200 0 (by omega)]
  have h1 : chunkNextStart text.length 1200 200 0 = 1000 := by
    rw [chunkNextStart_of_lt text.length 1200 200 0 (by omega) (by omega)]
  rw [h1]
  rw [chunkTextAux_cons text 1200 200 1000 (by omega)]
  have h2 : chunkNextStart text.length 1200 200 1000 = 2000 := by
    rw [chunkNextStart_of_lt text.length 1200 200 1000 (by omega) (by omega)]
  rw [h2]
  rw [chunkTextAux_last text 1200 200 2000 (by omega) (by omega)]
  rfl

set_option maxRecDepth 10000 in
/-- C7, counterexample: with the target dimension configured to 512, the
dry-run placeholder vector still has length 768, not the configured
dimension. -/
theorem ingest_dry_run_cex :
    (ingestFile true 512 (fun _ => ([] : List ℚ)) ['a', 'b', 'c']).map
        (fun r => r.vectors.map List.length) = some [768]
    ∧ (768 : ℕ) ≠ 512 := by
  constructor
  · have hc : chunk_text ['a', 'b', 'c'] 1200 200 = [['a', 'b', 'c']] := by
      rw [chunk_text, chunkTextAux_last _ _ _ _ (by decide) (by decide)]
      rfl
    simp only [ingestFile, hc]
    rfl
  · decide

/-- C7, amended: in dry-run mode the pipeline substitutes, for every chunk,
the deterministic placeholder vector of fixed length 768 (equal to the
configured target dimension only at its default value) instead of calling
the embedding provider, makes zero embedding and zero upsert calls, and for
a 3000-character text with `max_chars=1200, overlap=200` reports exactly 3
chunks. -/
theorem ingest_dry_run (targetDim : ℕ) (provider : List Char → List ℚ)
    (text : List Char) (h : text.length = 3000) :
    ∃ r, ingestFile true targetDim provider text = some r
      ∧ (∀ v ∈ r.vectors, v.length = 768)
      ∧ r.embedCalls = 0 ∧ r.upsertCalls = 0 ∧ r.reportedChunks = 3 := by
  have h3 := chunk_text_len_3000 text h
  have hne : (chunk_text text 1200 200).isEmpty = false := by
    cases hcc : chunk_text text 1200 200 with
    | nil => rw [hcc] at h3; simp at h3
    | cons a t => rfl
  simp only [ingestFile, hne]
  refine ⟨_, rfl, ?_, ?_, ?_, ?_⟩
  · intro v hv
    simp only [List.mem_map] at hv
    obtain ⟨c, _, hv⟩ := hv
    rw [← hv]
    show (List.replicate 768 (0 : ℚ)).length = 768
    rw [List.length_replicate]
  · rfl
  · rfl
  · show (List.map _ (chunk_text text 1200 200)).length = 3
    rw [List.length_map]
    exact h3

theorem ingest_dry_run_witness :
    (List.replicate 3000 'a').length = 3000
    ∧ ∃ r, ingestFile true 512 (fun _ => ([] : List ℚ)) (List.replicate 3000 'a') = some r
      ∧ (∀ v ∈ r.vectors, v.length = 768)
      ∧ r.embedCalls = 0 ∧ r.upsertCalls = 0 ∧ r.reportedChunks = 3 :=
  ⟨by rw [List.length_replicate],
    ingest_dry_run 512 (fun _ => []) (List.replicate 3000 'a') (by rw [List.length_replicate])⟩
